import Mathlib

/-!
Verification of the gaitbase report renderer and ROM entry logic.

The definitions below are a shallow embedding of the Python sources:

* gaitbase/reporter.py: make_text_report, _process_blocks,
  _conditional_format, _get_format_fields;
* gaitbase/rom_entryapp.py: _weight_normalize, _SCALE_grade_to_pts,
  select, update_rom, values_changed, vars_at_default;
* gaitbase/utils.py: validate_code.

Python strings are modelled by Lean String, dicts by association lists
with first-match lookup, exceptions by Except, and float arithmetic by
exact rational arithmetic (with Python's ZeroDivisionError modelled as
Option.none).
-/

namespace Gaitbase

/-- One parsed item of a Python format string, as produced by
string.Formatter().parse: either a literal fragment or a field
reference written as a name in braces. -/
inductive Item where
  | lit (s : String)
  | field (name : String)
deriving DecidableEq

/-- A format string is modelled in parsed form, as the list of its items. -/
abbrev FmtStr := List Item

/-- Python dict lookup on an association list: first binding wins.
Models data[k] returning some value, or none when the key is absent
(where Python would raise KeyError). -/
def alookup {β : Type} (data : List (String × β)) (k : String) : Option β :=
  match data with
  | [] => none
  | (k', v) :: rest => if k' = k then some v else alookup rest k

/-- Embeds _get_format_fields of reporter.py: the list of field names
referenced by a format string, in order of occurrence. -/
def fieldsOf (t : FmtStr) : List String :=
  t.filterMap (fun i =>
    match i with
    | Item.lit _ => none
    | Item.field n => some n)

/-- Embeds thestr.format(**data): every field is replaced by the value
of the referenced name. Fields are resolved left to right; a name
absent from data raises KeyError, modelled as Except.error carrying
the missing name. -/
def formatWith (data : List (String × String)) : FmtStr → Except String String
  | [] => Except.ok ""
  | Item.lit s :: rest => (formatWith data rest).map (fun r => s ++ r)
  | Item.field n :: rest =>
      match alookup data n with
      | none => Except.error n
      | some v => (formatWith data rest).map (fun r => v ++ r)

/-- Embeds _conditional_format of reporter.py: if the string has no
fields, or some referenced field is not at its default, format it with
the data; otherwise (all referenced fields defaulted) return the empty
string. -/
def conditional_format (t : FmtStr) (data : List (String × String))
    (fields_at_default : List String) : Except String String :=
  let flds := fieldsOf t
  if flds.isEmpty || flds.any (fun fld => !(fields_at_default.contains fld)) then
    formatWith data t
  else
    Except.ok ""

/-- A template block: either the Constants.conditional_dot separator
marker or a text block (a format string). -/
inductive Block where
  | sep
  | txt (t : FmtStr)
deriving DecidableEq

/-- The loop state of _process_blocks: the result of the most recent
_conditional_format call, and the text accumulated so far. -/
structure PBState where
  block_formatted : String
  report_text : String
deriving DecidableEq

/-- One iteration of the _process_blocks loop. prev is blocks[k-1]
(Python indexing: for k = 0 this is the last element of the list). On
a separator block, the separator string is appended only when the
previous block is not a separator and the last formatted block was
non-empty; on a text block, the block is formatted and appended when
non-empty. -/
def processStep (data : List (String × String)) (fields_at_default : List String)
    (prev : Block) (st : PBState) (b : Block) : Except String PBState :=
  match b with
  | Block.sep =>
      if prev ≠ Block.sep ∧ st.block_formatted ≠ "" then
        Except.ok ⟨st.block_formatted, st.report_text ++ ". "⟩
      else
        Except.ok st
  | Block.txt t =>
      match conditional_format t data fields_at_default with
      | Except.error e => Except.error e
      | Except.ok s =>
          if s ≠ "" then
            Except.ok ⟨s, st.report_text ++ s⟩
          else
            Except.ok ⟨s, st.report_text⟩

/-- The _process_blocks loop: processes the remaining blocks, threading
the previous block (for the blocks[k-1] test) and the state. -/
def processBlocksLoop (data : List (String × String)) (fields_at_default : List String) :
    List Block → Block → PBState → Except String PBState
  | [], _, st => Except.ok st
  | b :: rest, prev, st =>
      match processStep data fields_at_default prev st b with
      | Except.error e => Except.error e
      | Except.ok st' => processBlocksLoop data fields_at_default rest b st'

/-- Embeds _process_blocks of reporter.py. For a non-empty list the
previous block of the first iteration is blocks[-1], the last element
(Python negative indexing); block_formatted and report_text start
empty. -/
def processBlocks (blocks : List Block) (data : List (String × String))
    (fields_at_default : List String) : Except String String :=
  match blocks with
  | [] => Except.ok ""
  | b0 :: rest =>
      (processBlocksLoop data fields_at_default (b0 :: rest)
        ((b0 :: rest).getLastD b0) ⟨"", ""⟩).map (fun st => st.report_text)

/-- Embeds the readability rewrite of make_text_report: a value that is
a key of cfg.report.replace_data is replaced by the corresponding
entry; other values are kept. -/
def rewriteVal (table : List (String × String)) (v : String) : String :=
  match alookup table v with
  | some w => w
  | none => v

/-- The in-place loop of make_text_report over data.items(): every
value of the dict is rewritten through the replace table. -/
def rewriteData (table : List (String × String)) (data : List (String × String)) :
    List (String × String) :=
  data.map (fun p => (p.1, rewriteVal table p.2))

/-- Embeds make_text_report of reporter.py, with the template already
loaded as its block list. The data dict is mutated in place by the
readability rewrite before block processing; the first component of
the result is the data as left behind for the caller, the second the
rendered text. -/
def make_text_report (table : List (String × String)) (blocks : List Block)
    (data : List (String × String)) (fields_at_default : List String) :
    List (String × String) × Except String String :=
  let data' := rewriteData table data
  (data', processBlocks blocks data' fields_at_default)

/-- One emission of the _process_blocks loop: either the item
separator string or a non-empty formatted text block. Used to state
exactly which pieces of output each kind of block contributes. -/
inductive Emit where
  | sepE
  | blockE (s : String)
deriving DecidableEq

/-- The text contributed by one emission: the separator contributes
the fixed ITEM_SEPARATOR string, a block contributes its formatted
text. -/
def emitStr : Emit → String
  | Emit.sepE => ". "
  | Emit.blockE s => s

/-- Concatenation of an emission sequence. -/
def renderEmits : List Emit → String
  | [] => ""
  | e :: rest => emitStr e ++ renderEmits rest

/-- Instrumented version of the _process_blocks loop that records the
emission sequence instead of the concatenated text; the first
component of the result is the final block_formatted value. -/
def processEmitsLoop (data : List (String × String)) (fields_at_default : List String) :
    List Block → Block → String → Except String (String × List Emit)
  | [], _, bf => Except.ok (bf, [])
  | Block.sep :: rest, prev, bf =>
      match processEmitsLoop data fields_at_default rest Block.sep bf with
      | Except.error e => Except.error e
      | Except.ok (bf', es) =>
          if prev ≠ Block.sep ∧ bf ≠ "" then
            Except.ok (bf', Emit.sepE :: es)
          else
            Except.ok (bf', es)
  | Block.txt t :: rest, prev, bf =>
      match conditional_format t data fields_at_default with
      | Except.error e => Except.error e
      | Except.ok s =>
          match processEmitsLoop data fields_at_default rest (Block.txt t) s with
          | Except.error e => Except.error e
          | Except.ok (bf', es) =>
              if s ≠ "" then
                Except.ok (bf', Emit.blockE s :: es)
              else
                Except.ok (bf', es)

/-- The emission sequence of a whole _process_blocks run, with the
same initial previous block and state as processBlocks. -/
def processEmits (blocks : List Block) (data : List (String × String))
    (fields_at_default : List String) : Except String (String × List Emit) :=
  match blocks with
  | [] => Except.ok ("", [])
  | b0 :: rest =>
      processEmitsLoop data fields_at_default (b0 :: rest) ((b0 :: rest).getLastD b0) ""

/-- No two adjacent emissions are both separators. -/
def noDoubleSep (es : List Emit) : Prop :=
  List.Chain' (fun a b => ¬(a = Emit.sepE ∧ b = Emit.sepE)) es

/-- A value read from a weight-normalization input widget: either the
spinbox no-value sentinel (Constants.spinbox_novalue_text) or a
number; Python floats are modelled by exact rationals. -/
inductive WVal where
  | noval
  | num (q : ℚ)
deriving DecidableEq

/-- Embeds _weight_normalize of rom_entryapp.py: if either input holds
the no-value sentinel the output is the sentinel, otherwise the
unnormalized value is divided by the weight. A zero weight makes the
Python division raise ZeroDivisionError, modelled as none. -/
def weight_normalize : WVal → WVal → Option WVal
  | WVal.noval, _ => some WVal.noval
  | WVal.num _, WVal.noval => some WVal.noval
  | WVal.num v, WVal.num w => if w = 0 then none else some (WVal.num (v / w))

/-- A SCALE grade as selected in a combo box: one of the four texts
accepted by grade_txt_2_pts in _SCALE_grade_to_pts. -/
inductive Grade where
  | eiMitattu
  | normaali
  | alentunut
  | kykenematon
deriving DecidableEq

/-- Embeds the grade_txt_2_pts dict of _SCALE_grade_to_pts: the
not-measured text maps to -1, the grades to their point values. -/
def grade_txt_2_pts : Grade → Int
  | Grade.eiMitattu => -1
  | Grade.normaali => 2
  | Grade.alentunut => 1
  | Grade.kykenematon => 0

/-- One iteration of the _SCALE_grade_to_pts loop: a measured input
(cur different from -1) replaces a still-unset total (-1) or is added
to the running total; a not-measured input leaves the total alone. -/
def scaleStep (tot : Int) (g : Grade) : Int :=
  let cur := grade_txt_2_pts g
  if cur ≠ -1 then (if tot = -1 then cur else tot + cur) else tot

/-- Embeds _SCALE_grade_to_pts of rom_entryapp.py over the grades of
the autoinput widgets, with the total starting at -1. -/
def SCALE_grade_to_pts (gs : List Grade) : Int :=
  gs.foldl scaleStep (-1)

/-- Sum of the point values of the measured inputs. -/
def measuredSum (gs : List Grade) : Int :=
  ((gs.filter (fun g => g ≠ Grade.eiMitattu)).map grade_txt_2_pts).sum

/-- The outcome of executing a QSqlQuery, as far as the embedded
control flow observes it: whether exec() succeeded, whether first()
found a row, and the database error text of lastError(). -/
structure QueryOutcome where
  execOk : Bool
  firstOk : Bool
  errText : String
deriving DecidableEq

/-- Embeds the message construction of db_failure of rom_entryapp.py:
a non-empty database error text produces the locking-error message, an
empty one the schema-mismatch message. -/
def db_failure_msg (errText : String) : String :=
  if errText ≠ "" then
    "Got a database error: \"" ++ errText ++ "\"\n" ++
    "In case of a locking error, close all other applications " ++
    "that may be using the database, and try again."
  else
    "Could not read all variables from database. " ++
    "This may be due to a mismatch between the UI widgets " ++
    "and the database schema."

/-- Embeds select of rom_entryapp.py: if the query fails to exec or
finds no row, db_failure is called with fatal=True, which raises
RuntimeError with the failure message (Except.error); otherwise the
row values are returned. -/
def select {β : Type} (q : QueryOutcome) (results : List β) : Except String (List β) :=
  if q.execOk && q.firstOk then Except.ok results
  else Except.error (db_failure_msg q.errText)

/-- Embeds update_rom of rom_entryapp.py: mismatched argument lengths
raise ValueError; a failed exec calls db_failure with fatal=False,
which only shows a warning dialog (collected in the result list), and
the method returns normally. -/
def update_rom {β : Type} (thevars : List String) (values : List β)
    (q : QueryOutcome) : Except String (List String) :=
  if thevars.length ≠ values.length then
    Except.error "Arguments need to be of equal length"
  else if q.execOk then Except.ok []
  else Except.ok [db_failure_msg q.errText]

/-- Python dict assignment data[k] = v on the association-list model:
the first binding of k is replaced, or a new binding is appended. -/
def dictSet {β : Type} : List (String × β) → String → β → List (String × β)
  | [], k, v => [(k, v)]
  | (k', v') :: rest, k, v =>
      if k' = k then (k, v) :: rest else (k', v') :: dictSet rest k v

/-- Embeds the data-update part of values_changed of rom_entryapp.py:
the internal data dict receives the new value, then update_rom writes
that single field through; the in-memory value is kept whether or not
the write succeeds, and any warning dialog is collected. -/
def values_changed {β : Type} (data : List (String × β)) (varname : String)
    (newval : β) (q : QueryOutcome) :
    Except String (List (String × β) × List String) :=
  let data' := dictSet data varname newval
  (update_rom [varname] [newval] q).map (fun dialogs => (data', dialogs))

/-- A widget/data value: text, a number (exact rational), or the
no-value sentinel. Equality is Python == on these values: per type,
with the sentinel equal only to itself. -/
inductive Val where
  | noval
  | num (q : ℚ)
  | text (s : String)
deriving DecidableEq

/-- Embeds vars_at_default of rom_entryapp.py: the variables of the
data dict whose current value equals the default captured at form
initialization. -/
def vars_at_default {β : Type} [DecidableEq β]
    (data data_default : List (String × β)) : List String :=
  (data.map Prod.fst).filter
    (fun v => decide (alookup data v = alookup data_default v))

/-- Modelled from the spec: Constants.patient_code_prefixes is not
among the sources; the accepted diagnosis letters C, E, D, H, M are
taken from the validate_code docstring. -/
def patient_code_prefixes : List Char := ['C', 'E', 'D', 'H', 'M']

/-- Python str.split with a single-character separator (underscore),
on the char-list view of the string. -/
def splitUnderscore : List Char → List (List Char)
  | [] => [[]]
  | c :: rest =>
      match splitUnderscore rest with
      | [] => [[c]]
      | p :: ps => if c = '_' then [] :: p :: ps else (c :: p) :: ps

/-- Value of a digit sequence read in base 10. -/
def digitsToNat (ds : List Char) : Nat :=
  ds.foldl (fun acc c => acc * 10 + (c.toNat - 48)) 0

/-- Models Python int(s) as used on the numeric part of a patient
code: surrounding whitespace is ignored, an optional sign precedes at
least one digit; none models the ValueError raised otherwise. -/
def pyInt (s : List Char) : Option Int :=
  let t := ((s.dropWhile Char.isWhitespace).reverse.dropWhile Char.isWhitespace).reverse
  match t with
  | [] => none
  | c :: rest =>
      if c = '-' then
        if rest ≠ [] ∧ rest.all Char.isDigit then some (-(digitsToNat rest : Int)) else none
      else if c = '+' then
        if rest ≠ [] ∧ rest.all Char.isDigit then some ((digitsToNat rest : Int)) else none
      else
        if (c :: rest).all Char.isDigit then some ((digitsToNat (c :: rest) : Int)) else none

/-- Python str.isalpha: non-empty and all letters. -/
def pyIsAlpha (s : List Char) : Bool :=
  !s.isEmpty && s.all Char.isAlpha

/-- Embeds validate_code of utils.py on the char-list view of the
patient code. Except.error () models the uncaught ValueError raised
when unpacking code.split to exactly two names fails; the ValueError
of int() is caught in the source and yields False. -/
def validate_code (code : List Char) : Except Unit Bool :=
  if code.isEmpty then Except.ok false
  else if !(patient_code_prefixes.contains (code.headD ' ')) then Except.ok false
  else if !(code.contains '_') then Except.ok false
  else
    match splitUnderscore code with
    | [ns, initials] =>
        (match pyInt (ns.drop 1) with
        | none => Except.ok false
        | some n =>
            if ¬ (0 ≤ n ∧ n ≤ 9999) then Except.ok false
            else if ¬ (initials.length = 2 ∨ initials.length = 3) ∨ ¬ pyIsAlpha initials then
              Except.ok false
            else Except.ok true)
    | _ => Except.error ()

theorem renderEmits_cons (e : Emit) (es : List Emit) :
    renderEmits (e :: es) = emitStr e ++ renderEmits es := rfl

/-- The source loop computes the concatenation of the instrumented
loop's emission sequence, appended to the report text accumulated so
far. -/
theorem processBlocksLoop_eq_emits (data : List (String × String))
    (fields_at_default : List String) :
    ∀ (bs : List Block) (prev : Block) (st : PBState),
      processBlocksLoop data fields_at_default bs prev st =
        (processEmitsLoop data fields_at_default bs prev st.block_formatted).map
          (fun p => ⟨p.1, st.report_text ++ renderEmits p.2⟩) := by
  intro bs
  induction bs with
  | nil =>
      intro prev st
      simp [processBlocksLoop, processEmitsLoop, renderEmits, Except.map,
        String.append_empty]
  | cons b rest ih =>
      intro prev st
      cases b with
      | sep =>
          by_cases hc : prev ≠ Block.sep ∧ st.block_formatted ≠ ""
          · simp only [processBlocksLoop, processStep, if_pos hc, processEmitsLoop]
            rw [ih]
            cases hrec : processEmitsLoop data fields_at_default rest Block.sep
                st.block_formatted with
            | error e => simp [Except.map]
            | ok p =>
                simp [Except.map, if_pos hc, renderEmits_cons, emitStr,
                  String.append_assoc]
          · simp only [processBlocksLoop, processStep, if_neg hc, processEmitsLoop]
            rw [ih]
            cases hrec : processEmitsLoop data fields_at_default rest Block.sep
                st.block_formatted with
            | error e => simp [Except.map]
            | ok p => simp [Except.map, if_neg hc]
      | txt t =>
          cases hcf : conditional_format t data fields_at_default with
          | error e =>
              simp [processBlocksLoop, processStep, hcf, processEmitsLoop, Except.map]
          | ok s =>
              by_cases hs : s ≠ ""
              · simp only [processBlocksLoop, processStep, hcf, if_pos hs,
                  processEmitsLoop]
                rw [ih]
                cases hrec : processEmitsLoop data fields_at_default rest (Block.txt t) s with
                | error e => simp [Except.map]
                | ok p =>
                    simp [Except.map, if_pos hs, renderEmits_cons, emitStr,
                      String.append_assoc]
              · simp only [processBlocksLoop, processStep, hcf, if_neg hs,
                  processEmitsLoop]
                rw [ih]
                cases hrec : processEmitsLoop data fields_at_default rest (Block.txt t) s with
                | error e => simp [Except.map]
                | ok p => simp [Except.map, if_neg hs]

/-- Structure of the emission sequence produced by the loop: a leading
separator emission can only arise from a non-separator previous block
and a non-empty last formatted value, separators never appear twice in
a row, and every emitted block is non-empty. -/
theorem processEmitsLoop_good (data : List (String × String))
    (fields_at_default : List String) :
    ∀ (bs : List Block) (prev : Block) (bf bf' : String) (es : List Emit),
      processEmitsLoop data fields_at_default bs prev bf = Except.ok (bf', es) →
        (es.head? = some Emit.sepE → prev ≠ Block.sep ∧ bf ≠ "") ∧
        noDoubleSep es ∧
        (∀ s, Emit.blockE s ∈ es → s ≠ "") := by
  intro bs
  induction bs with
  | nil =>
      intro prev bf bf' es h
      simp only [processEmitsLoop, Except.ok.injEq, Prod.mk.injEq] at h
      obtain ⟨-, hes⟩ := h
      subst hes
      simp [noDoubleSep]
  | cons b rest ih =>
      intro prev bf bf' es h
      cases b with
      | sep =>
          cases hrec : processEmitsLoop data fields_at_default rest Block.sep bf with
          | error e => simp [processEmitsLoop, hrec] at h
          | ok p =>
              obtain ⟨bf0, es0⟩ := p
              simp only [processEmitsLoop, hrec] at h
              have ihg := ih Block.sep bf bf0 es0 hrec
              have hhead : es0.head? ≠ some Emit.sepE := by
                intro hh
                exact absurd rfl (ihg.1 hh).1
              by_cases hc : prev ≠ Block.sep ∧ bf ≠ ""
              · rw [if_pos hc] at h
                simp only [Except.ok.injEq, Prod.mk.injEq] at h
                obtain ⟨-, hes⟩ := h
                subst hes
                refine ⟨fun _ => hc, ?_, ?_⟩
                · refine List.chain'_cons'.mpr ⟨?_, ihg.2.1⟩
                  intro y hy hcontra
                  have hy' : es0.head? = some y := Option.mem_def.mp hy
                  rw [hcontra.2] at hy'
                  exact hhead hy'
                · intro s hs
                  rcases hs with _ | hs
                  · exact ihg.2.2 s (by assumption)
              · rw [if_neg hc] at h
                simp only [Except.ok.injEq, Prod.mk.injEq] at h
                obtain ⟨-, hes⟩ := h
                subst hes
                exact ⟨fun hh => absurd hh hhead, ihg.2.1, ihg.2.2⟩
      | txt t =>
          cases hcf : conditional_format t data fields_at_default with
          | error e => simp [processEmitsLoop, hcf] at h
          | ok s =>
              cases hrec : processEmitsLoop data fields_at_default rest (Block.txt t) s with
              | error e => simp [processEmitsLoop, hcf, hrec] at h
              | ok p =>
                  obtain ⟨bf0, es0⟩ := p
                  simp only [processEmitsLoop, hcf, hrec] at h
                  have ihg := ih (Block.txt t) s bf0 es0 hrec
                  by_cases hs : s ≠ ""
                  · rw [if_pos hs] at h
                    simp only [Except.ok.injEq, Prod.mk.injEq] at h
                    obtain ⟨-, hes⟩ := h
                    subst hes
                    refine ⟨by simp, ?_, ?_⟩
                    · refine List.chain'_cons'.mpr ⟨?_, ihg.2.1⟩
                      intro y hy hcontra
                      exact absurd hcontra.1 (by simp)
                    · intro s' hs'
                      rcases hs' with _ | hs'
                      · exact hs
                      · exact ihg.2.2 s' (by assumption)
                  · rw [if_neg hs] at h
                    simp only [Except.ok.injEq, Prod.mk.injEq] at h
                    obtain ⟨-, hes⟩ := h
                    subst hes
                    have hhead : es0.head? ≠ some Emit.sepE := by
                      intro hh
                      exact hs (ihg.1 hh).2
                    exact ⟨fun hh => absurd hh hhead, ihg.2.1, ihg.2.2⟩

theorem fieldsOf_cons_lit (s : String) (rest : FmtStr) :
    fieldsOf (Item.lit s :: rest) = fieldsOf rest := rfl

theorem fieldsOf_cons_field (n : String) (rest : FmtStr) :
    fieldsOf (Item.field n :: rest) = n :: fieldsOf rest := rfl

/-- An error of formatWith always carries a referenced field name that
is absent from the data. -/
theorem formatWith_error_spec (data : List (String × String)) :
    ∀ (t : FmtStr) (f : String), formatWith data t = Except.error f →
      f ∈ fieldsOf t ∧ alookup data f = none := by
  intro t
  induction t with
  | nil => intro f h; simp [formatWith] at h
  | cons i rest ih =>
      intro f h
      cases i with
      | lit s =>
          cases hr : formatWith data rest with
          | error e =>
              rw [formatWith, hr] at h
              simp only [Except.map, Except.error.injEq] at h
              subst h
              have := ih _ hr
              exact ⟨by rw [fieldsOf_cons_lit]; exact this.1, this.2⟩
          | ok r => rw [formatWith, hr] at h; simp [Except.map] at h
      | field n =>
          cases hl : alookup data n with
          | none =>
              rw [formatWith, hl] at h
              simp only [Except.error.injEq] at h
              subst h
              exact ⟨by simp [fieldsOf], hl⟩
          | some v =>
              cases hr : formatWith data rest with
              | error e =>
                  rw [formatWith, hl, hr] at h
                  simp only [Except.map, Except.error.injEq] at h
                  subst h
                  have := ih _ hr
                  exact ⟨by rw [fieldsOf_cons_field]; exact List.mem_cons_of_mem _ this.1,
                    this.2⟩
              | ok r => rw [formatWith, hl, hr] at h; simp [Except.map] at h

/-- If some referenced field is absent from the data, formatWith fails
with an error naming such a field. -/
theorem formatWith_missing (data : List (String × String)) :
    ∀ (t : FmtStr), (∃ f ∈ fieldsOf t, alookup data f = none) →
      ∃ f, formatWith data t = Except.error f ∧ f ∈ fieldsOf t ∧ alookup data f = none := by
  intro t
  induction t with
  | nil => rintro ⟨f, hf, -⟩; simp [fieldsOf] at hf
  | cons i rest ih =>
      rintro ⟨f, hf, hnone⟩
      cases i with
      | lit s =>
          have hf' : f ∈ fieldsOf rest := by simpa [fieldsOf] using hf
          obtain ⟨g, hg, hgmem, hgnone⟩ := ih ⟨f, hf', hnone⟩
          refine ⟨g, ?_, by simpa [fieldsOf] using hgmem, hgnone⟩
          rw [formatWith, hg]
          simp [Except.map]
      | field n =>
          cases hl : alookup data n with
          | none =>
              refine ⟨n, ?_, by simp [fieldsOf], hl⟩
              rw [formatWith, hl]
          | some v =>
              have hf' : f ∈ fieldsOf rest := by
                have : f = n ∨ f ∈ fieldsOf rest := by simpa [fieldsOf] using hf
                rcases this with rfl | h
                · rw [hl] at hnone; exact absurd hnone (by simp)
                · exact h
              obtain ⟨g, hg, hgmem, hgnone⟩ := ih ⟨f, hf', hnone⟩
              refine ⟨g, ?_, (by simp only [fieldsOf, List.filterMap_cons_some]; exact List.mem_cons_of_mem _ hgmem), hgnone⟩
              rw [formatWith, hl, hg]
              simp [Except.map]

/-- An error of conditional_format always carries a referenced field
name that is absent from the data. -/
theorem conditional_format_error_spec (t : FmtStr) (data : List (String × String))
    (fields_at_default : List String) (f : String) :
    conditional_format t data fields_at_default = Except.error f →
      f ∈ fieldsOf t ∧ alookup data f = none := by
  intro h
  by_cases hcond : ((fieldsOf t).isEmpty
      || (fieldsOf t).any (fun fld => !(fields_at_default.contains fld))) = true
  · rw [conditional_format] at h
    simp only [if_pos hcond] at h
    exact formatWith_error_spec data t f h
  · rw [conditional_format] at h
    simp only [if_neg hcond] at h
    exact absurd h (by simp)

/-- A block that is not elided (some referenced field off-default) and
references a field absent from the data makes conditional_format fail,
naming such a missing field. -/
theorem conditional_format_missing (t : FmtStr) (data : List (String × String))
    (fields_at_default : List String)
    (hoff : ∃ f ∈ fieldsOf t, f ∉ fields_at_default)
    (hmiss : ∃ f ∈ fieldsOf t, alookup data f = none) :
    ∃ f, conditional_format t data fields_at_default = Except.error f ∧
      f ∈ fieldsOf t ∧ alookup data f = none := by
  obtain ⟨g, hg, hgoff⟩ := hoff
  have hcond : ((fieldsOf t).isEmpty
      || (fieldsOf t).any (fun fld => !(fields_at_default.contains fld))) = true := by
    refine Bool.or_eq_true_iff.mpr (Or.inr ?_)
    refine List.any_eq_true.mpr ⟨g, hg, ?_⟩
    simp [hgoff]
  obtain ⟨f, hf, hfmem, hfnone⟩ := formatWith_missing data t hmiss
  refine ⟨f, ?_, hfmem, hfnone⟩
  rw [conditional_format]
  simp only [if_pos hcond]
  exact hf

/-- Any error of the _process_blocks loop names a field referenced by
one of its blocks and absent from the data. -/
theorem processBlocksLoop_error_spec (data : List (String × String))
    (fields_at_default : List String) :
    ∀ (bs : List Block) (prev : Block) (st : PBState) (f : String),
      processBlocksLoop data fields_at_default bs prev st = Except.error f →
        alookup data f = none ∧ ∃ t, Block.txt t ∈ bs ∧ f ∈ fieldsOf t := by
  intro bs
  induction bs with
  | nil => intro prev st f h; simp [processBlocksLoop] at h
  | cons b rest ih =>
      intro prev st f h
      cases b with
      | sep =>
          by_cases hc : prev ≠ Block.sep ∧ st.block_formatted ≠ ""
          · simp only [processBlocksLoop, processStep, if_pos hc] at h
            obtain ⟨hn, t, ht, hmem⟩ := ih Block.sep _ f h
            exact ⟨hn, t, List.mem_cons_of_mem _ ht, hmem⟩
          · simp only [processBlocksLoop, processStep, if_neg hc] at h
            obtain ⟨hn, t, ht, hmem⟩ := ih Block.sep _ f h
            exact ⟨hn, t, List.mem_cons_of_mem _ ht, hmem⟩
      | txt t =>
          cases hcf : conditional_format t data fields_at_default with
          | error e =>
              simp only [processBlocksLoop, processStep, hcf, Except.error.injEq] at h
              subst h
              have := conditional_format_error_spec t data fields_at_default _ hcf
              exact ⟨this.2, t, List.mem_cons_self _ _, this.1⟩
          | ok s =>
              by_cases hs : s ≠ ""
              · simp only [processBlocksLoop, processStep, hcf, if_pos hs] at h
                obtain ⟨hn, t', ht', hmem⟩ := ih (Block.txt t) _ f h
                exact ⟨hn, t', List.mem_cons_of_mem _ ht', hmem⟩
              · simp only [processBlocksLoop, processStep, hcf, if_neg hs] at h
                obtain ⟨hn, t', ht', hmem⟩ := ih (Block.txt t) _ f h
                exact ⟨hn, t', List.mem_cons_of_mem _ ht', hmem⟩

/-- If some block of the list is not elided and references a field
absent from the data, the _process_blocks loop fails. -/
theorem processBlocksLoop_missing (data : List (String × String))
    (fields_at_default : List String) :
    ∀ (bs : List Block) (prev : Block) (st : PBState),
      (∃ t, Block.txt t ∈ bs ∧ (∃ f ∈ fieldsOf t, f ∉ fields_at_default) ∧
        (∃ f ∈ fieldsOf t, alookup data f = none)) →
      ∃ f, processBlocksLoop data fields_at_default bs prev st = Except.error f := by
  intro bs
  induction bs with
  | nil => rintro prev st ⟨t, ht, -, -⟩; simp at ht
  | cons b rest ih =>
      rintro prev st ⟨t, ht, hoff, hmiss⟩
      rcases List.mem_cons.mp ht with rfl | htrest
      · obtain ⟨f, hf, -, -⟩ := conditional_format_missing t data fields_at_default hoff hmiss
        refine ⟨f, ?_⟩
        simp only [processBlocksLoop, processStep, hf]
      · cases b with
        | sep =>
            by_cases hc : prev ≠ Block.sep ∧ st.block_formatted ≠ ""
            · obtain ⟨f, hf⟩ := ih Block.sep
                ⟨st.block_formatted, st.report_text ++ ". "⟩ ⟨t, htrest, hoff, hmiss⟩
              refine ⟨f, ?_⟩
              simp only [processBlocksLoop, processStep, if_pos hc]
              exact hf
            · obtain ⟨f, hf⟩ := ih Block.sep st ⟨t, htrest, hoff, hmiss⟩
              refine ⟨f, ?_⟩
              simp only [processBlocksLoop, processStep, if_neg hc]
              exact hf
        | txt t' =>
            cases hcf : conditional_format t' data fields_at_default with
            | error e =>
                refine ⟨e, ?_⟩
                simp only [processBlocksLoop, processStep, hcf]
            | ok s =>
                by_cases hs : s ≠ ""
                · obtain ⟨f, hf⟩ := ih (Block.txt t')
                    ⟨s, st.report_text ++ s⟩ ⟨t, htrest, hoff, hmiss⟩
                  refine ⟨f, ?_⟩
                  simp only [processBlocksLoop, processStep, hcf, if_pos hs]
                  exact hf
                · obtain ⟨f, hf⟩ := ih (Block.txt t') ⟨s, st.report_text⟩
                    ⟨t, htrest, hoff, hmiss⟩
                  refine ⟨f, ?_⟩
                  simp only [processBlocksLoop, processStep, hcf, if_neg hs]
                  exact hf

/-- C1: the claim predicts that rendering the blocks
[age years old, SEP, weight kg] with age edited and weight defaulted
yields exactly the text 10 years old with no trailing separator. The
code instead emits the separator right after the non-empty first
block, before knowing that the weight block elides: the render is the
text followed by the separator, not the bare text. -/
theorem C1_scenario_counterexample :
    processBlocks
      [Block.txt [Item.field "age", Item.lit " years old"], Block.sep,
       Block.txt [Item.lit "weight ", Item.field "weight", Item.lit "kg"]]
      [("age", "10"), ("weight", "57")] ["weight"] = Except.ok ("10 years old" ++ ". ") ∧
    processBlocks
      [Block.txt [Item.field "age", Item.lit " years old"], Block.sep,
       Block.txt [Item.lit "weight ", Item.field "weight", Item.lit "kg"]]
      [("age", "10"), ("weight", "57")] ["weight"] ≠ Except.ok "10 years old" :=
  ⟨rfl, fun h => absurd (Except.ok.inj h) (by decide)⟩

/-- C1 amended: in the concrete scenario the weight block is elided,
but the separator after the non-empty first block is kept, so the
render is the first block followed by the item separator. -/
theorem C1_scenario_amended :
    processBlocks
      [Block.txt [Item.field "age", Item.lit " years old"], Block.sep,
       Block.txt [Item.lit "weight ", Item.field "weight", Item.lit "kg"]]
      [("age", "10"), ("weight", "57")] ["weight"] = Except.ok "10 years old. " := rfl

/-- C2: the claim states among other things that the rendered text
never ends with a separator. A block list whose last element is the
separator marker, preceded by a non-empty block, renders as that
block's text followed by the separator string, so the rendered text
does end with the separator. -/
theorem C2_separator_counterexample :
    processBlocks [Block.txt [Item.lit "a"], Block.sep] [] [] =
      Except.ok ("a" ++ ". ") ∧
    processBlocks [Block.txt [Item.lit "a"], Block.sep] [] [] ≠ Except.ok "a" :=
  ⟨rfl, fun h => absurd (Except.ok.inj h) (by decide)⟩

/-- C2 amended: a separator block contributes the separator string
exactly when the immediately preceding block is not a separator and
the most recently formatted non-separator block rendered non-empty
(first conjunct); and the emission sequence of a render never starts
with a separator, never contains two consecutive separators, and
consists otherwise of non-empty block texts, the rendered text being
the concatenation of the emissions (second conjunct). A trailing
separator is possible, since the emission test only looks at already
processed blocks. -/
theorem C2_separator_amended :
    (∀ (data : List (String × String)) (fields_at_default : List String)
        (rest : List Block) (prev : Block) (st : PBState),
        processBlocksLoop data fields_at_default (Block.sep :: rest) prev st =
          processBlocksLoop data fields_at_default rest Block.sep
            (if prev ≠ Block.sep ∧ st.block_formatted ≠ "" then
              PBState.mk st.block_formatted (st.report_text ++ ". ") else st)) ∧
    (∀ (blocks : List Block) (data : List (String × String))
        (fields_at_default : List String) (bf : String) (es : List Emit),
        processEmits blocks data fields_at_default = Except.ok (bf, es) →
          processBlocks blocks data fields_at_default = Except.ok (renderEmits es) ∧
          es.head? ≠ some Emit.sepE ∧
          noDoubleSep es ∧
          (∀ s, Emit.blockE s ∈ es → s ≠ "")) := by
  constructor
  · intro data fad rest prev st
    by_cases hc : prev ≠ Block.sep ∧ st.block_formatted ≠ ""
    · simp only [processBlocksLoop, processStep, if_pos hc]
    · simp only [processBlocksLoop, processStep, if_neg hc]
  · intro blocks data fad bf es h
    cases blocks with
    | nil =>
        simp only [processEmits, Except.ok.injEq, Prod.mk.injEq] at h
        obtain ⟨-, hes⟩ := h
        subst hes
        exact ⟨rfl, by simp, by simp [noDoubleSep], by simp⟩
    | cons b0 rest =>
        have hloop : processEmitsLoop data fad (b0 :: rest) ((b0 :: rest).getLastD b0) "" =
            Except.ok (bf, es) := h
        have hgood := processEmitsLoop_good data fad (b0 :: rest)
          ((b0 :: rest).getLastD b0) "" bf es hloop
        refine ⟨?_, ?_, hgood.2.1, hgood.2.2⟩
        · have hglue := processBlocksLoop_eq_emits data fad (b0 :: rest)
            ((b0 :: rest).getLastD b0) ⟨"", ""⟩
          simp only [processBlocks, hglue, hloop, Except.map, String.empty_append]
        · intro hh
          exact absurd rfl (hgood.1 hh).2

theorem C2_separator_amended_witness :
    processBlocks [Block.txt [Item.lit "a"], Block.sep, Block.txt [Item.lit "b"]]
        [] [] =
      Except.ok (renderEmits [Emit.blockE "a", Emit.sepE, Emit.blockE "b"]) ∧
    ([Emit.blockE "a", Emit.sepE, Emit.blockE "b"] : List Emit).head? ≠
      some Emit.sepE ∧
    noDoubleSep [Emit.blockE "a", Emit.sepE, Emit.blockE "b"] ∧
    (∀ s, Emit.blockE s ∈ ([Emit.blockE "a", Emit.sepE, Emit.blockE "b"] : List Emit) →
      s ≠ "") :=
  C2_separator_amended.2
    [Block.txt [Item.lit "a"], Block.sep, Block.txt [Item.lit "b"]] [] [] "b"
    [Emit.blockE "a", Emit.sepE, Emit.blockE "b"] rfl

/-- C3: a block with at least one placeholder, all of whose referenced
names are at their defaults, renders as the empty string; a block with
no placeholders, or with some referenced name off-default, renders via
literal placeholder substitution over the data (the format call). -/
theorem C3_elision_law (t : FmtStr) (data : List (String × String))
    (fields_at_default : List String) :
    ((fieldsOf t ≠ [] ∧ ∀ f ∈ fieldsOf t, f ∈ fields_at_default) →
      conditional_format t data fields_at_default = Except.ok "") ∧
    ((fieldsOf t = [] ∨ ∃ f ∈ fieldsOf t, f ∉ fields_at_default) →
      conditional_format t data fields_at_default = formatWith data t) := by
  constructor
  · rintro ⟨hne, hall⟩
    have hcond : ¬ ((fieldsOf t).isEmpty
        || (fieldsOf t).any (fun fld => !(fields_at_default.contains fld))) = true := by
      intro hc
      rcases Bool.or_eq_true_iff.mp hc with h1 | h2
      · exact hne (List.isEmpty_iff.mp h1)
      · obtain ⟨f, hf, hnf⟩ := List.any_eq_true.mp h2
        have hmem : f ∈ fields_at_default := hall f hf
        simp [hmem] at hnf
    simp only [conditional_format, if_neg hcond]
  · intro hor
    have hcond : ((fieldsOf t).isEmpty
        || (fieldsOf t).any (fun fld => !(fields_at_default.contains fld))) = true := by
      rcases hor with hemp | ⟨f, hf, hnf⟩
      · exact Bool.or_eq_true_iff.mpr (Or.inl (List.isEmpty_iff.mpr hemp))
      · exact Bool.or_eq_true_iff.mpr (Or.inr (List.any_eq_true.mpr ⟨f, hf, by simp [hnf]⟩))
    simp only [conditional_format, if_pos hcond]

theorem C3_elision_law_witness :
    conditional_format [Item.field "weight", Item.lit "kg"] [("weight", "57")] ["weight"] =
      Except.ok "" ∧
    conditional_format [Item.field "age", Item.lit " years old"] [("age", "10")] [] =
      formatWith [("age", "10")] [Item.field "age", Item.lit " years old"] :=
  ⟨(C3_elision_law [Item.field "weight", Item.lit "kg"] [("weight", "57")] ["weight"]).1
      (by decide),
    (C3_elision_law [Item.field "age", Item.lit " years old"] [("age", "10")] []).2
      (by decide)⟩

/-- C4: the claim predicts that any render whose blocks reference a
name absent from the data fails. But a block all of whose referenced
names are listed as defaulted is elided without ever formatting, so an
unknown name inside it is silently dropped and the render succeeds. -/
theorem C4_unknown_field_counterexample :
    processBlocks [Block.txt [Item.field "x"]] [] ["x"] = Except.ok "" ∧
    alookup ([] : List (String × String)) "x" = none ∧
    "x" ∈ fieldsOf [Item.field "x"] :=
  ⟨rfl, rfl, by decide⟩

/-- C4 amended: if some block that is actually formatted (it has a
referenced name off-default, so it is not elided) references a name
absent from the data, the render fails with an error naming a missing
referenced field (first conjunct); and any render error names a field
that is referenced by some block and absent from the data, so no
unknown placeholder of a formatted block is silently substituted or
dropped (second conjunct). -/
theorem C4_unknown_field_amended :
    (∀ (blocks : List Block) (data : List (String × String)) (fads : List String),
      (∃ t, Block.txt t ∈ blocks ∧ (∃ f ∈ fieldsOf t, f ∉ fads) ∧
        (∃ f ∈ fieldsOf t, alookup data f = none)) →
      ∃ f, processBlocks blocks data fads = Except.error f ∧ alookup data f = none ∧
        ∃ t, Block.txt t ∈ blocks ∧ f ∈ fieldsOf t) ∧
    (∀ (blocks : List Block) (data : List (String × String)) (fads : List String)
        (f : String),
      processBlocks blocks data fads = Except.error f →
        alookup data f = none ∧ ∃ t, Block.txt t ∈ blocks ∧ f ∈ fieldsOf t) := by
  constructor
  · intro blocks data fads hmiss
    cases blocks with
    | nil =>
        obtain ⟨t, ht, -, -⟩ := hmiss
        simp at ht
    | cons b0 rest =>
        obtain ⟨f, hf⟩ := processBlocksLoop_missing data fads (b0 :: rest)
          ((b0 :: rest).getLastD b0) ⟨"", ""⟩ hmiss
        have hspec := processBlocksLoop_error_spec data fads (b0 :: rest)
          ((b0 :: rest).getLastD b0) ⟨"", ""⟩ f hf
        refine ⟨f, ?_, hspec.1, hspec.2⟩
        simp only [processBlocks, hf, Except.map]
  · intro blocks data fads f h
    cases blocks with
    | nil => simp [processBlocks] at h
    | cons b0 rest =>
        have hloop : processBlocksLoop data fads (b0 :: rest)
            ((b0 :: rest).getLastD b0) ⟨"", ""⟩ = Except.error f := by
          cases hl : processBlocksLoop data fads (b0 :: rest)
              ((b0 :: rest).getLastD b0) ⟨"", ""⟩ with
          | error e =>
              simp only [processBlocks, hl, Except.map] at h
              simp only [Except.error.injEq] at h
              rw [h]
          | ok st =>
              simp only [processBlocks, hl, Except.map] at h
              exact absurd h (by simp)
        exact processBlocksLoop_error_spec data fads (b0 :: rest)
          ((b0 :: rest).getLastD b0) ⟨"", ""⟩ f hloop

theorem C4_unknown_field_amended_witness :
    alookup ([] : List (String × String)) "x" = none ∧
    ∃ t, Block.txt t ∈ [Block.txt [Item.field "x"]] ∧ "x" ∈ fieldsOf t :=
  C4_unknown_field_amended.2 [Block.txt [Item.field "x"]] [] [] "x" rfl

/-- C5: the claim predicts that for non-sentinel inputs the output
equals raw divided by weight. With a zero weight the Python division
raises ZeroDivisionError instead of producing any output, modelled
here as none. -/
theorem C5_ratio_counterexample :
    weight_normalize (WVal.num 1) (WVal.num 0) = none ∧
    WVal.num (1 : ℚ) ≠ WVal.noval ∧ WVal.num (0 : ℚ) ≠ WVal.noval :=
  ⟨rfl, by decide, by decide⟩

/-- C5 amended: the no-value sentinel propagates from either input;
for numeric inputs with a non-zero weight the output is exactly the
quotient of the rationals; a zero weight raises (no output). -/
theorem C5_ratio_amended :
    (∀ w : WVal, weight_normalize WVal.noval w = some WVal.noval) ∧
    (∀ v : ℚ, weight_normalize (WVal.num v) WVal.noval = some WVal.noval) ∧
    (∀ (v w : ℚ), w ≠ 0 →
      weight_normalize (WVal.num v) (WVal.num w) = some (WVal.num (v / w))) ∧
    (∀ v : ℚ, weight_normalize (WVal.num v) (WVal.num 0) = none) := by
  refine ⟨fun w => rfl, fun v => rfl, ?_, fun v => rfl⟩
  intro v w hw
  simp [weight_normalize, hw]

theorem C5_ratio_amended_witness :
    (2 : ℚ) ≠ 0 ∧
    weight_normalize (WVal.num 1) (WVal.num 2) = some (WVal.num (1 / 2)) :=
  ⟨by norm_num, C5_ratio_amended.2.2.1 1 2 (by norm_num)⟩

theorem grade_pts_eq_neg_one (g : Grade) :
    grade_txt_2_pts g = -1 ↔ g = Grade.eiMitattu := by
  cases g <;> simp [grade_txt_2_pts]

theorem grade_pts_nonneg (g : Grade) (h : g ≠ Grade.eiMitattu) :
    0 ≤ grade_txt_2_pts g := by
  cases g with
  | eiMitattu => exact absurd rfl h
  | normaali => decide
  | alentunut => decide
  | kykenematon => decide

theorem measuredSum_cons_unmeasured (gs : List Grade) :
    measuredSum (Grade.eiMitattu :: gs) = measuredSum gs := by
  simp [measuredSum]

theorem measuredSum_cons_measured (g : Grade) (gs : List Grade)
    (h : g ≠ Grade.eiMitattu) :
    measuredSum (g :: gs) = grade_txt_2_pts g + measuredSum gs := by
  simp [measuredSum, h]

/-- Once the running total is set (non-negative), the rest of the
_SCALE_grade_to_pts loop adds exactly the measured scores. -/
theorem foldl_scaleStep_nonneg (gs : List Grade) :
    ∀ tot : Int, 0 ≤ tot → gs.foldl scaleStep tot = tot + measuredSum gs := by
  induction gs with
  | nil => intro tot _; simp [measuredSum]
  | cons g gs ih =>
      intro tot htot
      by_cases hg : g = Grade.eiMitattu
      · subst hg
        have hstep : scaleStep tot Grade.eiMitattu = tot := by
          simp [scaleStep, grade_txt_2_pts]
        rw [List.foldl_cons, hstep, ih tot htot, measuredSum_cons_unmeasured]
      · have hcur : grade_txt_2_pts g ≠ -1 := by
          rw [Ne, grade_pts_eq_neg_one]; exact hg
        have hnn := grade_pts_nonneg g hg
        have hne : tot ≠ -1 := by omega
        have hstep : scaleStep tot g = tot + grade_txt_2_pts g := by
          simp [scaleStep, hcur, hne]
        rw [List.foldl_cons, hstep, ih _ (by omega),
          measuredSum_cons_measured g gs hg]
        omega

theorem SCALE_all_unmeasured (gs : List Grade)
    (h : ∀ g ∈ gs, g = Grade.eiMitattu) : SCALE_grade_to_pts gs = -1 := by
  induction gs with
  | nil => rfl
  | cons g gs ih =>
      have hg : g = Grade.eiMitattu := h g (List.mem_cons_self _ _)
      subst hg
      have hstep : scaleStep (-1) Grade.eiMitattu = -1 := by
        simp [scaleStep, grade_txt_2_pts]
      show (Grade.eiMitattu :: gs).foldl scaleStep (-1) = -1
      rw [List.foldl_cons, hstep]
      exact ih (fun g hg => h g (List.mem_cons_of_mem _ hg))

theorem SCALE_some_measured (gs : List Grade)
    (h : ∃ g ∈ gs, g ≠ Grade.eiMitattu) :
    SCALE_grade_to_pts gs = measuredSum gs := by
  induction gs with
  | nil => obtain ⟨g, hg, -⟩ := h; simp at hg
  | cons g gs ih =>
      by_cases hg : g = Grade.eiMitattu
      · subst hg
        have hstep : scaleStep (-1) Grade.eiMitattu = -1 := by
          simp [scaleStep, grade_txt_2_pts]
        have hrest : ∃ g ∈ gs, g ≠ Grade.eiMitattu := by
          obtain ⟨g', hg', hne⟩ := h
          rcases List.mem_cons.mp hg' with rfl | hmem
          · exact absurd rfl hne
          · exact ⟨g', hmem, hne⟩
        show (Grade.eiMitattu :: gs).foldl scaleStep (-1) = _
        rw [List.foldl_cons, hstep, measuredSum_cons_unmeasured]
        exact ih hrest
      · have hcur : grade_txt_2_pts g ≠ -1 := by
          rw [Ne, grade_pts_eq_neg_one]; exact hg
        have hstep : scaleStep (-1) g = grade_txt_2_pts g := by
          simp [scaleStep, hcur]
        show (g :: gs).foldl scaleStep (-1) = _
        rw [List.foldl_cons, hstep, measuredSum_cons_measured g gs hg,
          foldl_scaleStep_nonneg gs _ (grade_pts_nonneg g hg)]

theorem measuredSum_perm (gs gs' : List Grade) (h : gs.Perm gs') :
    measuredSum gs = measuredSum gs' := by
  unfold measuredSum
  exact List.Perm.sum_eq (List.Perm.map _ (List.Perm.filter _ h))

/-- C6: if every SCALE input grade is not-measured the total is the
not-measured sentinel -1; otherwise the total is the sum of the scores
of exactly the measured inputs; and the total is invariant under
permutation of the input list. -/
theorem C6_scale_aggregate (gs : List Grade) :
    ((∀ g ∈ gs, g = Grade.eiMitattu) → SCALE_grade_to_pts gs = -1) ∧
    ((∃ g ∈ gs, g ≠ Grade.eiMitattu) → SCALE_grade_to_pts gs = measuredSum gs) ∧
    (∀ gs' : List Grade, gs.Perm gs' →
      SCALE_grade_to_pts gs = SCALE_grade_to_pts gs') := by
  refine ⟨SCALE_all_unmeasured gs, SCALE_some_measured gs, ?_⟩
  intro gs' hperm
  by_cases hall : ∀ g ∈ gs, g = Grade.eiMitattu
  · have hall' : ∀ g ∈ gs', g = Grade.eiMitattu := by
      intro g hg
      exact hall g (hperm.mem_iff.mpr hg)
    rw [SCALE_all_unmeasured gs hall, SCALE_all_unmeasured gs' hall']
  · push_neg at hall
    obtain ⟨g, hg, hne⟩ := hall
    have hex : ∃ g ∈ gs, g ≠ Grade.eiMitattu := ⟨g, hg, hne⟩
    have hex' : ∃ g ∈ gs', g ≠ Grade.eiMitattu :=
      ⟨g, hperm.mem_iff.mp hg, hne⟩
    rw [SCALE_some_measured gs hex, SCALE_some_measured gs' hex']
    exact measuredSum_perm gs gs' hperm

theorem C6_scale_aggregate_witness :
    SCALE_grade_to_pts [Grade.normaali, Grade.eiMitattu, Grade.kykenematon] =
      measuredSum [Grade.normaali, Grade.eiMitattu, Grade.kykenematon] ∧
    SCALE_grade_to_pts [Grade.normaali, Grade.eiMitattu, Grade.kykenematon] =
      SCALE_grade_to_pts [Grade.kykenematon, Grade.normaali, Grade.eiMitattu] ∧
    SCALE_grade_to_pts [Grade.eiMitattu, Grade.eiMitattu] = -1 :=
  ⟨(C6_scale_aggregate [Grade.normaali, Grade.eiMitattu, Grade.kykenematon]).2.1
      ⟨Grade.normaali, by decide, by decide⟩,
    (C6_scale_aggregate [Grade.normaali, Grade.eiMitattu, Grade.kykenematon]).2.2
      [Grade.kykenematon, Grade.normaali, Grade.eiMitattu] (by decide),
    (C6_scale_aggregate [Grade.eiMitattu, Grade.eiMitattu]).1 (by decide)⟩

/-- C7: a failed read during initial load raises (select returns an
error carrying the db_failure message, so edit mode is not entered),
while a failed per-field write-through returns normally: the new value
is kept in the data dict and the db_failure message is shown as a
warning dialog. -/
theorem C7_db_error_policy :
    (∀ (β : Type) (q : QueryOutcome) (results : List β),
      ¬(q.execOk = true ∧ q.firstOk = true) →
      select q results = Except.error (db_failure_msg q.errText)) ∧
    (∀ (β : Type) (data : List (String × β)) (varname : String) (newval : β)
        (q : QueryOutcome), q.execOk = false →
      values_changed data varname newval q =
        Except.ok (dictSet data varname newval, [db_failure_msg q.errText])) := by
  constructor
  · intro β q results h
    have hand : ¬ ((q.execOk && q.firstOk) = true) := by
      rw [Bool.and_eq_true]; exact h
    simp [select, hand]
  · intro β data varname newval q hq
    simp [values_changed, update_rom, hq, Except.map]

theorem C7_db_error_policy_witness :
    select (QueryOutcome.mk false false "locked") ["v"] =
      Except.error (db_failure_msg "locked") ∧
    values_changed [("TiedotPvm", "1.1.2020")] "TiedotPvm" "2.2.2021"
        (QueryOutcome.mk false true "locked") =
      Except.ok (dictSet [("TiedotPvm", "1.1.2020")] "TiedotPvm" "2.2.2021",
        [db_failure_msg "locked"]) :=
  ⟨C7_db_error_policy.1 String (QueryOutcome.mk false false "locked") ["v"]
      (by decide),
    C7_db_error_policy.2 String [("TiedotPvm", "1.1.2020")] "TiedotPvm" "2.2.2021"
      (QueryOutcome.mk false true "locked") rfl⟩

/-- C9: a variable name is returned by vars_at_default exactly when it
is a key of the data dict and its current value equals the captured
default, under the value equality of Val (per type, with the no-value
sentinel equal only to itself). -/
theorem C9_vars_at_default_spec (data data_default : List (String × Val))
    (v : String) :
    v ∈ vars_at_default data data_default ↔
      v ∈ data.map Prod.fst ∧ alookup data v = alookup data_default v := by
  unfold vars_at_default
  rw [List.mem_filter]
  simp

theorem alookup_mem {β : Type} (l : List (String × β)) (k : String) (v : β)
    (h : alookup l k = some v) : (k, v) ∈ l := by
  induction l with
  | nil => simp [alookup] at h
  | cons p rest ih =>
      obtain ⟨k', v'⟩ := p
      rw [alookup] at h
      by_cases hk : k' = k
      · rw [if_pos hk] at h
        simp only [Option.some.injEq] at h
        subst h
        subst hk
        exact List.mem_cons_self _ _
      · rw [if_neg hk] at h
        exact List.mem_cons_of_mem _ (ih h)

/-- When no replacement value is itself replaceable, one pass of the
readability rewrite is a fixed point of a second pass. -/
theorem rewriteVal_idem (table : List (String × String))
    (hidem : ∀ p ∈ table, alookup table p.2 = none ∨ alookup table p.2 = some p.2)
    (v : String) : rewriteVal table (rewriteVal table v) = rewriteVal table v := by
  cases hl : alookup table v with
  | none => simp [rewriteVal, hl]
  | some w =>
      rcases hidem (v, w) (alookup_mem table v w hl) with h | h
      · simp [rewriteVal, hl, h]
      · simp [rewriteVal, hl, h]

theorem rewriteData_idem (table : List (String × String))
    (hidem : ∀ p ∈ table, alookup table p.2 = none ∨ alookup table p.2 = some p.2)
    (data : List (String × String)) :
    rewriteData table (rewriteData table data) = rewriteData table data := by
  unfold rewriteData
  rw [List.map_map]
  apply List.map_congr_left
  intro p hp
  simp [Function.comp, rewriteVal_idem table hidem p.2]

/-- C8: the claim predicts identical output when the renderer runs
twice in succession on the same tuple. The readability rewrite
mutates the data dict in place, so the second invocation rewrites
already-rewritten values: with a replacement table whose range meets
its keys, the two invocations render differently. -/
theorem C8_idempotence_counterexample :
    (make_text_report [("a", "b"), ("b", "c")] [Block.txt [Item.field "x"]]
      [("x", "a")] []).2 = Except.ok "b" ∧
    (make_text_report [("a", "b"), ("b", "c")] [Block.txt [Item.field "x"]]
      (make_text_report [("a", "b"), ("b", "c")] [Block.txt [Item.field "x"]]
        [("x", "a")] []).1 []).2 = Except.ok "c" ∧
    (Except.ok "c" : Except String String) ≠ Except.ok "b" :=
  ⟨rfl, rfl, fun h => absurd (Except.ok.inj h) (by decide)⟩

/-- C8 amended: when no replacement value of the table is itself
rewritten to something else (so the in-place readability rewrite is
idempotent), a second invocation of the renderer on the data left
behind by the first produces the same rendered text and leaves the
data unchanged. -/
theorem C8_idempotence_amended (table : List (String × String))
    (blocks : List Block) (data : List (String × String))
    (fads : List String)
    (hidem : ∀ p ∈ table, alookup table p.2 = none ∨ alookup table p.2 = some p.2) :
    (make_text_report table blocks (make_text_report table blocks data fads).1
        fads).2 =
      (make_text_report table blocks data fads).2 ∧
    (make_text_report table blocks (make_text_report table blocks data fads).1
        fads).1 =
      (make_text_report table blocks data fads).1 := by
  constructor
  · simp only [make_text_report]
    rw [rewriteData_idem table hidem data]
  · simp only [make_text_report]
    rw [rewriteData_idem table hidem data]

theorem C8_idempotence_amended_witness :
    (make_text_report [("Ei mitattu", "not measured")] [Block.txt [Item.field "x"]]
      (make_text_report [("Ei mitattu", "not measured")] [Block.txt [Item.field "x"]]
        [("x", "Ei mitattu")] []).1 []).2 =
    (make_text_report [("Ei mitattu", "not measured")] [Block.txt [Item.field "x"]]
      [("x", "Ei mitattu")] []).2 :=
  (C8_idempotence_amended [("Ei mitattu", "not measured")]
    [Block.txt [Item.field "x"]] [("x", "Ei mitattu")] [] (by decide)).1

theorem splitUnderscore_ne_nil (l : List Char) : splitUnderscore l ≠ [] := by
  cases l with
  | nil => simp [splitUnderscore]
  | cons c rest =>
      cases h : splitUnderscore rest with
      | nil => simp [splitUnderscore, h]
      | cons p ps => by_cases hc : c = '_' <;> simp [splitUnderscore, h, hc]

/-- Python str.split produces one more part than there are separator
occurrences. -/
theorem splitUnderscore_length (l : List Char) :
    (splitUnderscore l).length = l.count '_' + 1 := by
  induction l with
  | nil => simp [splitUnderscore]
  | cons c rest ih =>
      cases h : splitUnderscore rest with
      | nil => exact absurd h (splitUnderscore_ne_nil rest)
      | cons p ps =>
          rw [h] at ih
          by_cases hc : c = '_'
          · subst hc
            simp only [splitUnderscore, h, if_pos rfl, List.length_cons,
              List.count_cons]
            simp only [List.length_cons] at ih
            simp
            omega
          · simp only [splitUnderscore, h, if_neg hc, List.length_cons,
              List.count_cons]
            simp only [List.length_cons] at ih
            simp [hc]
            omega

/-- C10: a patient code that starts with an accepted diagnosis letter
and contains two or more underscores makes validate_code raise the
ValueError of the two-element unpacking of code.split (the split has
three or more parts), instead of returning False. -/
theorem C10_validate_code_raises (code : List Char)
    (hne : code ≠ [])
    (hpre : code.headD ' ' ∈ patient_code_prefixes)
    (hcount : 2 ≤ code.count '_') :
    validate_code code = Except.error () := by
  have hmem : '_' ∈ code := List.count_pos_iff.mp (by omega)
  have hlen : (splitUnderscore code).length = code.count '_' + 1 :=
    splitUnderscore_length code
  have h1 : ¬ (code.isEmpty = true) := by simp [List.isEmpty_iff, hne]
  have h2 : ¬ ((!(patient_code_prefixes.contains (code.headD ' '))) = true) := by
    have hc : patient_code_prefixes.contains (code.headD ' ') = true :=
      List.elem_iff.mpr hpre
    intro hcon
    rw [hc] at hcon
    simp at hcon
  have h3 : ¬ ((!(code.contains '_')) = true) := by
    have hc : code.contains '_' = true := List.elem_iff.mpr hmem
    intro hcon
    rw [hc] at hcon
    simp at hcon
  rw [validate_code, if_neg h1, if_neg h2, if_neg h3]
  rcases hsp : splitUnderscore code with _ | ⟨a, _ | ⟨b, _ | ⟨c, tl⟩⟩⟩
  · exact absurd hsp (splitUnderscore_ne_nil code)
  · rw [hsp] at hlen
  · rw [hsp] at hlen
    simp only [List.length_cons, List.length_nil] at hlen
    omega
  · rfl

theorem C10_validate_code_raises_witness :
    validate_code ("D1234_A_B".toList) = Except.error () :=
  C10_validate_code_raises ("D1234_A_B".toList) (by decide) (by decide) (by decide)

end Gaitbase
